import Mathlib

/-!
Shallow embedding of the BFS grid path finder from `src/lib.rs` of the
`challenger-soaint-wasm` repository, together with theorems settling the
specification claims about it.

Conventions of the embedding:
* the Rust grid `Vec<u8>` becomes `List Nat`; `Vec<(usize, usize)>` becomes
  `List (Nat × Nat)`;
* a Rust computation that can panic (an out-of-bounds index, an arithmetic
  underflow, or a loop that would not terminate) is modelled as returning
  `Option`, with `none` standing for the panic / divergence;
* the `HashMap<(usize,usize),(usize,usize)>` parent map becomes an
  association list consulted front-to-back (`lookupP`), insertion being a
  prepend — faithful because BFS only ever inserts fresh keys;
* the `VecDeque` queue becomes a `List` whose head is the front of the
  deque (`pop_front` takes the head, `push_back` appends at the tail);
* the two `while` loops are given explicit fuel; `bfs` hands its loop
  `n * n` units and `build_path` hands its loop `parent.length` units,
  amounts that the termination theorems prove sufficient.
-/

/-- A grid coordinate `(row, col)`, Rust's `(usize, usize)`. -/
abbrev Cell := Nat × Nat

/-- The parent map of the BFS, Rust's `HashMap<(usize,usize),(usize,usize)>`,
modelled as an association list. -/
abbrev PMap := List (Cell × Cell)

/-- Model of `HashMap::get`: first binding of the key, if any. -/
def lookupP (m : PMap) (c : Cell) : Option Cell :=
  match m with
  | [] => none
  | (k, v) :: rest => if c = k then some v else lookupP rest c

/-- The fixed neighbor-examination order of `bfs`:
`let dirs = [(1, 0), (0, 1), (-1, 0), (0, -1)];` in `src/lib.rs`. -/
def dirs : List (Int × Int) := [(1, 0), (0, 1), (-1, 0), (0, -1)]

/-- Flat index of a cell: `let idx = nx * n + ny;` in `src/lib.rs`. -/
def idxOf (n : Nat) (c : Cell) : Nat := c.1 * n + c.2

/-- The body of `for (dx, dy) in dirs { ... }` inside the BFS loop of
`src/lib.rs`, acting on the state `(visited, parent, queue)`.  The reads
`grid[idx]` and `visited[idx]` are total (`getD`) because Rust's `&&`
short-circuit evaluates them only under `nx < n && ny < n`, which together
with the already-checked `grid[n*n - 1]` read keeps them in bounds. -/
def tryDir (grid : List Nat) (n : Nat) (c : Cell)
    (st : List Bool × PMap × List Cell) (d : Int × Int) :
    List Bool × PMap × List Cell :=
  let (visited, parent, queue) := st
  let nx : Int := (c.1 : Int) + d.1
  let ny : Int := (c.2 : Int) + d.2
  if 0 ≤ nx ∧ 0 ≤ ny then
    let nxn : Nat := nx.toNat
    let nyn : Nat := ny.toNat
    let idx : Nat := nxn * n + nyn
    if nxn < n ∧ nyn < n then
      if grid.getD idx 0 = 1 ∧ visited.getD idx false = false then
        (visited.set idx true, ((nxn, nyn), c) :: parent, queue ++ [(nxn, nyn)])
      else (visited, parent, queue)
    else (visited, parent, queue)
  else (visited, parent, queue)

/-- One full `for (dx, dy) in dirs` pass over the 4-neighborhood. -/
def expand (grid : List Nat) (n : Nat) (c : Cell)
    (st : List Bool × PMap × List Cell) : List Bool × PMap × List Cell :=
  dirs.foldl (tryDir grid n c) st

/-- The `while let Some(&p) = parent.get(&end)` loop of `build_path` in
`src/lib.rs`, with fuel; `path` accumulates by pushing at the back exactly
as the Rust `Vec::push` does, and the final `reverse` mirrors
`path.reverse()`. -/
def buildPathLoop : Nat → PMap → Cell → List Cell → Option (List Cell)
  | fuel, parent, e, path =>
    match lookupP parent e with
    | none => some path.reverse
    | some p =>
      match fuel with
      | 0 => none
      | f + 1 => buildPathLoop f parent p (path ++ [p])

/-- Model of `build_path` of `src/lib.rs`: reconstruct the route from the
destination back to the start through the parent map. -/
def build_path (parent : PMap) (e : Cell) : Option (List Cell) :=
  buildPathLoop parent.length parent e [e]

/-- The `while let Some((x, y)) = queue.pop_front()` loop of `bfs` in
`src/lib.rs`, with fuel.  An empty queue returns the empty path, a dequeued
destination returns the reconstructed path. -/
def bfsLoop (grid : List Nat) (n : Nat) :
    Nat → List Cell → List Bool → PMap → Option (List Cell)
  | _, [], _, _ => some []
  | 0, _ :: _, _, _ => none
  | fuel + 1, c :: rest, visited, parent =>
    if c = (n - 1, n - 1) then build_path parent c
    else
      match expand grid n c (visited, parent, rest) with
      | (v', m', q') => bfsLoop grid n fuel q' v' m'

/-- Model of `bfs` of `src/lib.rs`.  The guard `grid[0] == 0 || grid[n * n - 1] == 0`
is evaluated left to right with short-circuit, so `grid[0]` is read first;
either read out of bounds is a panic (`none`), and `n = 0` makes
`n * n - 1` underflow, also a panic.  Otherwise the queue is seeded with
`(0, 0)`, `visited[0]` is set, and the loop runs (fuel `n * n`). -/
def bfs (grid : List Nat) (n : Nat) : Option (List Cell) :=
  match grid[0]? with
  | none => none
  | some g0 =>
    if g0 = 0 then some []
    else if n = 0 then none
    else
      match grid[n * n - 1]? with
      | none => none
      | some g1 =>
        if g1 = 0 then some []
        else bfsLoop grid n (n * n) [(0, 0)]
          ((List.replicate (n * n) false).set 0 true) []

/-- The `PathFinder` struct of `src/lib.rs`: it stores the path found by
BFS at construction. -/
structure PathFinder where
  path : List Cell
deriving DecidableEq

/-- Model of `PathFinder::new`: runs `bfs` eagerly and stores the result; `none`
when the underlying `bfs` call panics. -/
def PathFinder.new (grid : List Nat) (size : Nat) : Option PathFinder :=
  (bfs grid size).map PathFinder.mk

/-- Model of `PathFinder::has_path`: `!self.path.is_empty()`. -/
def PathFinder.has_path (pf : PathFinder) : Bool := !pf.path.isEmpty

/-- Model of `PathFinder::path`: the stored path flattened,
`self.path.iter().flat_map(|(x, y)| vec![*x, *y]).collect()`.  (Named
`path_flat` here because the Lean structure field already takes the name
`path`.) -/
def PathFinder.path_flat (pf : PathFinder) : List Nat :=
  pf.path.flatMap fun c => [c.1, c.2]

/-! ## Specification-level notions

The graph the claims speak about: cells of the `n × n` grid, free when the
flattened sequence holds `1` at their index, with 4-neighbor moves. -/

/-- The cell `c` is inside the `n × n` board. -/
def inb (n : Nat) (c : Cell) : Prop := c.1 < n ∧ c.2 < n

/-- The cell `c` is a free cell: `grid[row * n + col] == 1`. -/
def freeCell (grid : List Nat) (n : Nat) (c : Cell) : Prop :=
  grid.getD (idxOf n c) 0 = 1

/-- Four-adjacency: the two cells differ by exactly one in exactly one
coordinate. -/
def adjacent (c c' : Cell) : Prop :=
  (c.1 = c'.1 ∧ (c.2 + 1 = c'.2 ∨ c'.2 + 1 = c.2)) ∨
  (c.2 = c'.2 ∧ (c.1 + 1 = c'.1 ∨ c'.1 + 1 = c.1))

instance (c c' : Cell) : Decidable (adjacent c c') := by
  unfold adjacent; infer_instance

/-- A walk of `k` 4-neighbor moves through free in-bounds cells from `s`
to `t`. -/
inductive Walk (grid : List Nat) (n : Nat) : Cell → Cell → Nat → Prop
  | nil (c : Cell) : inb n c → freeCell grid n c → Walk grid n c c 0
  | cons (c c' t : Cell) (k : Nat) : inb n c → freeCell grid n c →
      adjacent c c' → Walk grid n c' t k → Walk grid n c t (k + 1)

/-- The number `k` is the exact shortest-walk hop count from the start `(0,0)`
to `c`. -/
def IsDist (grid : List Nat) (n : Nat) (c : Cell) (k : Nat) : Prop :=
  Walk grid n (0, 0) c k ∧ ∀ j, Walk grid n (0, 0) c j → k ≤ j

/-- The cell `c` has been discovered: it is the start or a key of the parent map. -/
def disc (m : PMap) (c : Cell) : Prop :=
  c = (0, 0) ∨ ∃ e ∈ m, e.1 = c

/-- The parent chain of `c` in `m`: the list `[c, parent c, ...]` obtained
by following the map until the start, which must have no binding. -/
inductive ChainL (m : PMap) : Cell → List Cell → Prop
  | base : lookupP m (0, 0) = none → ChainL m (0, 0) [(0, 0)]
  | step (c p : Cell) (l : List Cell) : lookupP m c = some p →
      ChainL m p l → ChainL m c (c :: l)

/-- The parent chain of `c` has exactly `k` hops (`k + 1` cells). -/
def labelIs (m : PMap) (c : Cell) (k : Nat) : Prop :=
  ∃ l, ChainL m c l ∧ l.length = k + 1

/-- The structural part of the BFS loop invariant, strong enough for
termination: sizes, visitedness of the queue and of the parent-map keys,
and well-formed parent chains.  It holds whatever the grid contents are. -/
structure Inv0 (n : Nat) (v : List Bool) (m : PMap) (q : List Cell) : Prop where
  vlen : v.length = n * n
  v0 : v.getD 0 false = true
  q_inb : ∀ c ∈ q, inb n c
  q_vis : ∀ c ∈ q, v.getD (idxOf n c) false = true
  keys_inb : ∀ e ∈ m, inb n e.1
  keys_vis : ∀ e ∈ m, v.getD (idxOf n e.1) false = true
  vals_disc : ∀ e ∈ m, disc m e.2
  no_parent0 : lookupP m (0, 0) = none
  q_chain : ∀ c ∈ q, ∃ l, ChainL m c l
  keys_chain : ∀ e ∈ m, ∃ l, ChainL m e.1 l

/-- The remaining BFS loop invariant, relative to the current frontier
distance `d`: the queue splits into a layer at distance `d` followed by a
layer at distance `d + 1`, chains measure true shortest distances, every
dequeued cell has had its whole free neighborhood discovered, and every
undiscovered free cell lies at distance at least `d + 1`. -/
structure InvX (grid : List Nat) (n : Nat) (v : List Bool) (m : PMap)
    (q : List Cell) (d : Nat) : Prop where
  vis_iff : ∀ c, inb n c → (v.getD (idxOf n c) false = true ↔ disc m c)
  disc_inb : ∀ c, disc m c → inb n c
  disc_free : ∀ c, disc m c → freeCell grid n c
  pairs_adj : ∀ e ∈ m, adjacent e.1 e.2
  layers : ∃ q1 q2, q = q1 ++ q2 ∧ (∀ c ∈ q1, labelIs m c d) ∧
      ∀ c ∈ q2, labelIs m c (d + 1)
  dist_ok : ∀ c, disc m c → ∀ l, ChainL m c l → IsDist grid n c (l.length - 1)
  expanded : ∀ w, disc m w → w ∉ q → ∀ u, adjacent w u → inb n u →
      freeCell grid n u → disc m u
  frontier : ∀ u, inb n u → freeCell grid n u → ¬ disc m u →
      ∀ j, Walk grid n (0, 0) u j → d + 1 ≤ j

/-- The loop invariant during the expansion of a popped cell `c` whose
parent chain has `d` hops: `InvX` where the popped cell is exempted from
the neighborhood-completeness clause until its four directions have been
processed. -/
structure MidInv (grid : List Nat) (n : Nat) (c : Cell) (d : Nat)
    (v : List Bool) (m : PMap) (q : List Cell) : Prop where
  inv0 : Inv0 n v m q
  vis_iff : ∀ x, inb n x → (v.getD (idxOf n x) false = true ↔ disc m x)
  disc_inb : ∀ x, disc m x → inb n x
  disc_free : ∀ x, disc m x → freeCell grid n x
  pairs_adj : ∀ e ∈ m, adjacent e.1 e.2
  layers : ∃ q1 q2, q = q1 ++ q2 ∧ (∀ x ∈ q1, labelIs m x d) ∧
      ∀ x ∈ q2, labelIs m x (d + 1)
  dist_ok : ∀ x, disc m x → ∀ l, ChainL m x l → IsDist grid n x (l.length - 1)
  expanded : ∀ w, disc m w → w ∉ q → w ≠ c → ∀ u, adjacent w u → inb n u →
      freeCell grid n u → disc m u
  frontier : ∀ u, inb n u → freeCell grid n u → ¬ disc m u →
      ∀ j, Walk grid n (0, 0) u j → d + 1 ≤ j
  c_disc : disc m c
  c_label : labelIs m c d

/-- Everything the claims ask of a non-empty path returned by `bfs`: it
starts at `(0,0)`, ends at `(n-1,n-1)`, runs through free in-bounds cells
by 4-neighbor moves, and its hop count is the exact shortest distance. -/
def GoodPath (grid : List Nat) (n : Nat) (p : List Cell) : Prop :=
  p.head? = some (0, 0) ∧ p.getLast? = some (n - 1, n - 1) ∧
  (∀ x ∈ p, inb n x ∧ freeCell grid n x) ∧ p.Chain' adjacent ∧
  IsDist grid n (n - 1, n - 1) (p.length - 1)

/-! ## Basic arithmetic and list lemmas -/

theorem idx_last (n : Nat) (hn : 1 ≤ n) : (n - 1) * n + (n - 1) = n * n - 1 := by
  cases n with
  | zero => exact absurd hn (by decide)
  | succ m =>
    have h : (m + 1) * (m + 1) = m * (m + 1) + m + 1 := by ring
    simp only [Nat.succ_sub_one]
    rw [h, Nat.add_sub_cancel]

theorem one_le_sq (n : Nat) (hn : 1 ≤ n) : 1 ≤ n * n := by
  have := Nat.mul_le_mul hn hn
  simpa using this

theorem flatMap_pair_length (l : List Cell) :
    (l.flatMap fun c => [c.1, c.2]).length = 2 * l.length := by
  induction l with
  | nil => rfl
  | cons a t ih => simp [List.flatMap_cons, ih]; omega

theorem flatMap_pair_get (l : List Cell) (i : Nat) :
    (l.flatMap fun c => [c.1, c.2])[2 * i]? = l[i]?.map Prod.fst ∧
    (l.flatMap fun c => [c.1, c.2])[2 * i + 1]? = l[i]?.map Prod.snd := by
  induction l generalizing i with
  | nil => simp
  | cons a t ih =>
    cases i with
    | zero => simp [List.flatMap_cons]
    | succ j =>
      have h2 : 2 * (j + 1) = 2 * j + 1 + 1 := by ring
      rw [h2]
      simpa [List.flatMap_cons] using ih j

/-- The function `bfs` rejects immediately when the start or the destination cell is
blocked. -/
theorem bfs_blocked (grid : List Nat) (n : Nat) (hn : 1 ≤ n)
    (hlen : grid.length = n * n)
    (hblock : grid.getD (idxOf n (0, 0)) 0 = 0 ∨
      grid.getD (idxOf n (n - 1, n - 1)) 0 = 0) :
    bfs grid n = some [] := by
  have hnn : 1 ≤ n * n := one_le_sq n hn
  have hpos : 0 < grid.length := by omega
  have h0 : grid[0]? = some (grid.getD 0 0) := by
    rw [List.getElem?_eq_getElem hpos, List.getD_eq_getElem grid 0 hpos]
  unfold bfs
  rw [h0]
  dsimp only
  by_cases hg0 : grid.getD 0 0 = 0
  · rw [if_pos hg0]
  · have hdest : grid.getD (n * n - 1) 0 = 0 := by
      rcases hblock with h | h
      · exact absurd (by simpa [idxOf] using h) hg0
      · rwa [idxOf, idx_last n hn] at h
    have hlt : n * n - 1 < grid.length := by omega
    have h1 : grid[n * n - 1]? = some (grid.getD (n * n - 1) 0) := by
      rw [List.getElem?_eq_getElem hlt, List.getD_eq_getElem grid _ hlt]
    rw [if_neg hg0, if_neg (by omega : ¬ n = 0), h1]
    dsimp only
    rw [if_pos hdest]

/-! ## Lemmas about `getD`, `set` and `count` -/

theorem getD_set_self {l : List Bool} {i : Nat} {a d : Bool}
    (h : i < l.length) : (l.set i a).getD i d = a := by
  rw [List.getD_eq_getElem?_getD, List.getElem?_set_self h]
  rfl

theorem getD_set_ne {l : List Bool} {i j : Nat} {a d : Bool} (h : i ≠ j) :
    (l.set i a).getD j d = l.getD j d := by
  rw [List.getD_eq_getElem?_getD, List.getElem?_set_ne h,
    ← List.getD_eq_getElem?_getD]

theorem getD_replicate_false {k i : Nat} :
    (List.replicate k false).getD i false = false := by
  rw [List.getD_eq_getElem?_getD]
  rcases h : (List.replicate k false)[i]? with _ | b
  · rfl
  · have := List.getElem?_mem h
    rw [List.eq_of_mem_replicate this]
    rfl

theorem count_set_true {l : List Bool} {i : Nat} (h : i < l.length)
    (hf : l.getD i false = false) :
    (l.set i true).count true = l.count true + 1 := by
  have hi : l[i] = false := by rw [← List.getD_eq_getElem l false h, hf]
  rw [List.count_set true true l i h, hi]
  simp

theorem getD_set_mono {l : List Bool} {i j : Nat}
    (h : l.getD j false = true) : (l.set i true).getD j false = true := by
  by_cases hij : i = j
  · subst hij
    by_cases hl : i < l.length
    · rw [getD_set_self hl]
    · rwa [List.set_eq_of_length_le (by omega)]
  · rwa [getD_set_ne hij]

/-! ## Index arithmetic -/

theorem idx_lt {n : Nat} {c : Cell} (h : inb n c) : idxOf n c < n * n := by
  rcases c with ⟨a, b⟩
  rcases h with ⟨h1, h2⟩
  have h3 : (a + 1) * n ≤ n * n := Nat.mul_le_mul_right n h1
  have h4 : (a + 1) * n = a * n + n := by ring
  unfold idxOf
  simp only at *
  generalize hA : a * n = A at *
  generalize hB : (a + 1) * n = B at *
  generalize hC : n * n = C at *
  omega

theorem idx_inj {n : Nat} {c c' : Cell} (h : inb n c) (h' : inb n c')
    (he : idxOf n c = idxOf n c') : c = c' := by
  rcases c with ⟨a, b⟩
  rcases c' with ⟨a', b'⟩
  have hn : 0 < n := Nat.lt_of_le_of_lt (Nat.zero_le b) h.2
  unfold idxOf at he
  simp only at he h h'
  have he' : b + a * n = b' + a' * n := by omega
  have hb : b = b' := by
    have e1 : (b + a * n) % n = b := by
      rw [Nat.add_mul_mod_self_right, Nat.mod_eq_of_lt h.2]
    have e2 : (b' + a' * n) % n = b' := by
      rw [Nat.add_mul_mod_self_right, Nat.mod_eq_of_lt h'.2]
    rw [← e1, ← e2, he']
  subst hb
  have ha : a * n = a' * n := by omega
  have := Nat.eq_of_mul_eq_mul_right hn ha
  simp [this]

theorem idx_zero (n : Nat) : idxOf n (0, 0) = 0 := by simp [idxOf]

theorem idx_eq_zero_iff {n : Nat} {c : Cell} (h : inb n c) (hn : 1 ≤ n) :
    idxOf n c = 0 ↔ c = (0, 0) := by
  constructor
  · intro he
    exact idx_inj h ⟨hn, hn⟩ (by rw [he, idx_zero])
  · intro he
    rw [he, idx_zero]

/-! ## Lemmas about `lookupP` and `disc` -/

theorem lookupP_cons (k v : Cell) (m : PMap) (c : Cell) :
    lookupP ((k, v) :: m) c = if c = k then some v else lookupP m c := rfl

theorem lookupP_mem {m : PMap} {c p : Cell} (h : lookupP m c = some p) :
    (c, p) ∈ m := by
  induction m with
  | nil => simp [lookupP] at h
  | cons e rest ih =>
    rcases e with ⟨k, v⟩
    rw [lookupP_cons] at h
    by_cases hc : c = k
    · rw [if_pos hc] at h
      injection h with h
      subst hc; subst h
      exact List.mem_cons_self _ _
    · rw [if_neg hc] at h
      exact List.mem_cons_of_mem _ (ih h)

theorem lookupP_some_of_key {m : PMap} {c : Cell}
    (h : ∃ e ∈ m, e.1 = c) : ∃ p, lookupP m c = some p := by
  induction m with
  | nil => simp at h
  | cons e rest ih =>
    rcases e with ⟨k, v⟩
    rw [lookupP_cons]
    by_cases hc : c = k
    · exact ⟨v, if_pos hc⟩
    · rw [if_neg hc]
      apply ih
      rcases h with ⟨e', he', hk⟩
      rcases List.mem_cons.mp he' with h1 | h1
      · subst h1; simp at hk; exact absurd hk.symm hc
      · exact ⟨e', h1, hk⟩

theorem disc_start (m : PMap) : disc m (0, 0) := Or.inl rfl

theorem disc_cons_iff {k v : Cell} {m : PMap} {x : Cell} :
    disc ((k, v) :: m) x ↔ x = k ∨ disc m x := by
  unfold disc
  constructor
  · rintro (h | ⟨e, he, hk⟩)
    · exact Or.inr (Or.inl h)
    · rcases List.mem_cons.mp he with h1 | h1
      · subst h1; exact Or.inl hk.symm
      · exact Or.inr (Or.inr ⟨e, h1, hk⟩)
  · rintro (h | h | ⟨e, he, hk⟩)
    · exact Or.inr ⟨(k, v), List.mem_cons_self _ _, h.symm⟩
    · exact Or.inl h
    · exact Or.inr ⟨e, List.mem_cons_of_mem _ he, hk⟩

theorem disc_mono_cons {k v : Cell} {m : PMap} {x : Cell} (h : disc m x) :
    disc ((k, v) :: m) x := disc_cons_iff.mpr (Or.inr h)

theorem disc_of_key {m : PMap} {e : Cell × Cell} (h : e ∈ m) :
    disc m e.1 := Or.inr ⟨e, h, rfl⟩

/-! ## Lemmas about parent chains -/

theorem chainL_shape {m : PMap} {c : Cell} {l : List Cell}
    (h : ChainL m c l) : ∃ t, l = c :: t := by
  cases h with
  | base _ => exact ⟨[], rfl⟩
  | step c p l _ _ => exact ⟨l, rfl⟩

theorem chainL_func {m : PMap} {c : Cell} {l l' : List Cell}
    (h1 : ChainL m c l) (h2 : ChainL m c l') : l = l' := by
  induction h1 generalizing l' with
  | base h =>
    cases h2 with
    | base _ => rfl
    | step c p l hl _ => rw [h] at hl; cases hl
  | step c p l hl _ ih =>
    cases h2 with
    | base h => rw [h] at hl; cases hl
    | step c2 p2 l2 hl2 hc2 =>
      rw [hl] at hl2
      injection hl2 with hp
      subst hp
      rw [ih hc2]

theorem chainL_last {m : PMap} {c : Cell} {l : List Cell}
    (h : ChainL m c l) : l.getLast? = some (0, 0) := by
  induction h with
  | base _ => rfl
  | step c p l hl hc ih =>
    obtain ⟨t, rfl⟩ := chainL_shape hc
    rw [List.getLast?_cons_cons]
    exact ih

theorem chainL_nodes_disc {m : PMap} {c : Cell} {l : List Cell}
    (h : ChainL m c l) : ∀ x ∈ l, disc m x := by
  induction h with
  | base _ =>
    intro x hx
    rw [List.mem_singleton] at hx
    rw [hx]; exact disc_start m
  | step c p l hl hc ih =>
    intro x hx
    rcases List.mem_cons.mp hx with h1 | h1
    · rw [h1]; exact disc_of_key (lookupP_mem hl)
    · exact ih x h1

theorem chainL_head_disc {m : PMap} {c : Cell} {l : List Cell}
    (h : ChainL m c l) : disc m c := by
  obtain ⟨t, rfl⟩ := chainL_shape h
  exact chainL_nodes_disc h c (List.mem_cons_self _ _)

theorem chainL_chain'_adj {m : PMap} {c : Cell} {l : List Cell}
    (h : ChainL m c l) (hadj : ∀ e ∈ m, adjacent e.1 e.2) :
    l.Chain' adjacent := by
  induction h with
  | base _ => simp
  | step c p l hl hc ih =>
    obtain ⟨t, rfl⟩ := chainL_shape hc
    rw [List.chain'_cons]
    exact ⟨hadj (c, p) (lookupP_mem hl), ih⟩

theorem chainL_mem_chain {m : PMap} {c : Cell} {l : List Cell}
    (h : ChainL m c l) : ∀ y ∈ l, ∃ ly, ChainL m y ly ∧ ly.length ≤ l.length := by
  induction h with
  | base h0 =>
    intro y hy
    rw [List.mem_singleton] at hy
    subst hy
    exact ⟨[(0, 0)], ChainL.base h0, le_refl _⟩
  | step c p l hl hc ih =>
    intro y hy
    rcases List.mem_cons.mp hy with h1 | h1
    · exact ⟨c :: l, h1 ▸ ChainL.step c p l hl hc, le_refl _⟩
    · obtain ⟨ly, h2, h3⟩ := ih y h1
      exact ⟨ly, h2, by simp only [List.length_cons]; omega⟩

theorem chainL_nodup {m : PMap} {c : Cell} {l : List Cell}
    (h : ChainL m c l) : l.Nodup := by
  induction h with
  | base _ => simp
  | step c p l hl hc ih =>
    rw [List.nodup_cons]
    refine ⟨?_, ih⟩
    intro hmem
    obtain ⟨lc, h2, h3⟩ := chainL_mem_chain hc c hmem
    have := chainL_func (ChainL.step c p l hl hc) h2
    rw [← this] at h3
    simp only [List.length_cons] at h3
    omega

theorem chainL_dropLast_keys {m : PMap} {c : Cell} {l : List Cell}
    (h : ChainL m c l) : ∀ x ∈ l.dropLast, ∃ e ∈ m, e.1 = x := by
  induction h with
  | base _ => simp
  | step c p l hl hc ih =>
    obtain ⟨t, rfl⟩ := chainL_shape hc
    intro x hx
    rw [List.dropLast_cons₂] at hx
    rcases List.mem_cons.mp hx with h1 | h1
    · exact ⟨(c, p), lookupP_mem hl, h1.symm⟩
    · exact ih x h1

theorem chainL_length_le {m : PMap} {c : Cell} {l : List Cell}
    (h : ChainL m c l) : l.length ≤ m.length + 1 := by
  have hnd : l.dropLast.Nodup :=
    List.Nodup.sublist (List.dropLast_sublist l) (chainL_nodup h)
  have hsub : l.dropLast ⊆ m.map Prod.fst := by
    intro x hx
    obtain ⟨e, he, hk⟩ := chainL_dropLast_keys h x hx
    exact List.mem_map.mpr ⟨e, he, hk⟩
  have hle : l.dropLast.length ≤ (m.map Prod.fst).length :=
    (List.subperm_of_subset hnd hsub).length_le
  rw [List.length_map, List.length_dropLast] at hle
  omega

theorem chainL_insert_fwd {m : PMap} {c' p0 : Cell} (hf : ¬ disc m c')
    {x : Cell} {l : List Cell} (h : ChainL m x l) :
    ChainL ((c', p0) :: m) x l := by
  induction h with
  | base h0 =>
    apply ChainL.base
    rw [lookupP_cons, if_neg, h0]
    intro he
    exact hf (he ▸ disc_start m)
  | step c p l hl hc ih =>
    apply ChainL.step _ p _ _ ih
    rw [lookupP_cons, if_neg, hl]
    intro he
    exact hf (he ▸ disc_of_key (lookupP_mem hl))

theorem chainL_insert_bwd {m : PMap} {c' p0 : Cell} (hf : ¬ disc m c')
    (hvals : ∀ e ∈ m, disc m e.2) {x : Cell} {l : List Cell}
    (hx : disc m x) (h : ChainL ((c', p0) :: m) x l) : ChainL m x l := by
  induction h with
  | base h0 =>
    apply ChainL.base
    rw [lookupP_cons] at h0
    by_cases he : ((0, 0) : Cell) = c'
    · rw [if_pos he] at h0; cases h0
    · rwa [if_neg he] at h0
  | step c p l hl hc ih =>
    have hne : c ≠ c' := fun he => hf (he ▸ hx)
    rw [lookupP_cons, if_neg hne] at hl
    have hp : disc m p := hvals (c, p) (lookupP_mem hl)
    exact ChainL.step c p l hl (ih hp)

/-! ## Lemmas about walks -/

theorem adjacent_symm {c c' : Cell} (h : adjacent c c') : adjacent c' c := by
  unfold adjacent at *
  omega

theorem walk_src {grid : List Nat} {n : Nat} {s t : Cell} {k : Nat}
    (h : Walk grid n s t k) : inb n s ∧ freeCell grid n s := by
  cases h with
  | nil c hi hf => exact ⟨hi, hf⟩
  | cons c c' t k hi hf _ _ => exact ⟨hi, hf⟩

theorem walk_dst {grid : List Nat} {n : Nat} {s t : Cell} {k : Nat}
    (h : Walk grid n s t k) : inb n t ∧ freeCell grid n t := by
  induction h with
  | nil c hi hf => exact ⟨hi, hf⟩
  | cons c c' t k hi hf ha hw ih => exact ih

theorem walk_zero {grid : List Nat} {n : Nat} {s t : Cell}
    (h : Walk grid n s t 0) : s = t := by
  cases h; rfl

theorem walk_snoc_aux {grid : List Nat} {n : Nat} (k : Nat) :
    ∀ s w : Cell, Walk grid n s w k → ∀ t, adjacent w t → inb n t →
      freeCell grid n t → Walk grid n s t (k + 1) := by
  induction k with
  | zero =>
    intro s w h t ha hi hf
    obtain ⟨hi', hf'⟩ := walk_src h
    have he := walk_zero h
    subst he
    exact Walk.cons s t t 0 hi' hf' ha (Walk.nil t hi hf)
  | succ k' ih =>
    intro s w h t ha hi hf
    cases h
    rename_i c' hi' hf' ha' hw
    exact Walk.cons s c' t (k' + 1) hi' hf' ha' (ih c' w hw t ha hi hf)

theorem walk_snoc {grid : List Nat} {n : Nat} {s w t : Cell} {k : Nat}
    (h : Walk grid n s w k) (ha : adjacent w t) (hi : inb n t)
    (hf : freeCell grid n t) : Walk grid n s t (k + 1) :=
  walk_snoc_aux k s w h t ha hi hf

theorem walk_decomp {grid : List Nat} {n : Nat} (k : Nat) :
    ∀ s t : Cell, Walk grid n s t (k + 1) →
      ∃ w, Walk grid n s w k ∧ adjacent w t := by
  induction k with
  | zero =>
    intro s t h
    cases h
    rename_i c' hi hf ha hw
    have he := walk_zero hw
    subst he
    exact ⟨s, Walk.nil s hi hf, ha⟩
  | succ k' ih =>
    intro s t h
    cases h
    rename_i c' hi hf ha hw
    obtain ⟨w, hw', hadj⟩ := ih c' t hw
    exact ⟨w, Walk.cons s c' w k' hi hf ha hw', hadj⟩

/-! ## Correctness of `build_path` on a well-formed parent chain -/

theorem buildPathLoop_spec {m : PMap} {e : Cell} {l : List Cell}
    (h : ChainL m e l) : ∀ (acc : List Cell) (fuel : Nat),
    l.length - 1 ≤ fuel →
    buildPathLoop fuel m e (acc ++ [e]) = some ((acc ++ l).reverse) := by
  induction h with
  | base h0 =>
    intro acc fuel _
    rw [buildPathLoop, h0]
  | step c p l hl hc ih =>
    intro acc fuel hfuel
    obtain ⟨t, rfl⟩ := chainL_shape hc
    simp only [List.length_cons] at hfuel
    rcases fuel with _ | f
    · omega
    · rw [buildPathLoop, hl]
      dsimp only
      rw [ih (acc ++ [c]) f (by simp only [List.length_cons]; omega)]
      simp [List.append_assoc]

theorem build_path_of_chain {m : PMap} {e : Cell} {l : List Cell}
    (h : ChainL m e l) : build_path m e = some l.reverse := by
  have hlen := chainL_length_le h
  have := buildPathLoop_spec h [] m.length (by omega)
  simpa [build_path] using this

/-! ## Case analysis of one neighbor step -/

theorem tryDir_eq (grid : List Nat) (n : Nat) (c : Cell) (v : List Bool)
    (m : PMap) (q : List Cell) (d : Int × Int) :
    tryDir grid n c (v, m, q) d = (v, m, q) ∨
    ∃ c' : Cell, inb n c' ∧ grid.getD (idxOf n c') 0 = 1 ∧
      v.getD (idxOf n c') false = false ∧
      (c'.1 : Int) = (c.1 : Int) + d.1 ∧ (c'.2 : Int) = (c.2 : Int) + d.2 ∧
      tryDir grid n c (v, m, q) d =
        (v.set (idxOf n c') true, (c', c) :: m, q ++ [c']) := by
  simp only [tryDir]
  by_cases h1 : (0 : Int) ≤ (c.1 : Int) + d.1 ∧ (0 : Int) ≤ (c.2 : Int) + d.2
  · rw [if_pos h1]
    by_cases h2 : ((c.1 : Int) + d.1).toNat < n ∧ ((c.2 : Int) + d.2).toNat < n
    · rw [if_pos h2]
      by_cases h3 :
          grid.getD (((c.1 : Int) + d.1).toNat * n + ((c.2 : Int) + d.2).toNat) 0 = 1 ∧
          v.getD (((c.1 : Int) + d.1).toNat * n + ((c.2 : Int) + d.2).toNat) false = false
      · rw [if_pos h3]
        right
        refine ⟨(((c.1 : Int) + d.1).toNat, ((c.2 : Int) + d.2).toNat),
          h2, h3.1, h3.2, ?_, ?_, rfl⟩
        · simp [Int.toNat_of_nonneg h1.1]
        · simp [Int.toNat_of_nonneg h1.2]
      · rw [if_neg h3]; left; rfl
    · rw [if_neg h2]; left; rfl
  · rw [if_neg h1]; left; rfl

theorem dir_adjacent {c c' : Cell} {d : Int × Int} (hd : d ∈ dirs)
    (h1 : (c'.1 : Int) = (c.1 : Int) + d.1)
    (h2 : (c'.2 : Int) = (c.2 : Int) + d.2) : adjacent c' c := by
  have hcases : d = (1, 0) ∨ d = (0, 1) ∨ d = (-1, 0) ∨ d = (0, -1) := by
    simpa [dirs] using hd
  unfold adjacent
  rcases hcases with h | h | h | h <;> subst h <;> dsimp only at h1 h2 <;> omega

/-- After processing direction `d` from `c`, the in-bounds free neighbor of
`c` in direction `d` (if it exists) is marked visited. -/
theorem tryDir_covers {grid : List Nat} {n : Nat} {c : Cell} {v : List Bool}
    {m : PMap} {q : List Cell} {d : Int × Int} (hv : v.length = n * n)
    {u : Cell} (hu : inb n u) (hf : grid.getD (idxOf n u) 0 = 1)
    (h1 : (u.1 : Int) = (c.1 : Int) + d.1)
    (h2 : (u.2 : Int) = (c.2 : Int) + d.2) :
    (tryDir grid n c (v, m, q) d).1.getD (idxOf n u) false = true := by
  rcases tryDir_eq grid n c v m q d with he | ⟨c', hinb, _, hunvis, hc1, hc2, he⟩
  · rw [he]
    by_cases hvv : v.getD (idxOf n u) false = true
    · exact hvv
    have hvf : v.getD (idxOf n u) false = false := by
      simpa using hvv
    exfalso
    have hcomp : tryDir grid n c (v, m, q) d =
        (v.set (idxOf n u) true, (u, c) :: m, q ++ [u]) := by
      simp only [tryDir]
      rw [← h1, ← h2]
      rw [if_pos ⟨Int.natCast_nonneg u.1, Int.natCast_nonneg u.2⟩]
      simp only [Int.toNat_natCast]
      rw [if_pos (show u.1 < n ∧ u.2 < n from hu)]
      rw [if_pos (⟨hf, hvf⟩ :
        grid.getD (u.1 * n + u.2) 0 = 1 ∧ v.getD (u.1 * n + u.2) false = false)]
      simp [idxOf]
    rw [hcomp] at he
    have := congrArg (fun st => st.2.1.length) he
    simp at this
  · rw [he]
    have heq : c' = u := by
      have e1 : (c'.1 : Int) = (u.1 : Int) := by rw [hc1, h1]
      have e2 : (c'.2 : Int) = (u.2 : Int) := by rw [hc2, h2]
      have e1' : c'.1 = u.1 := Int.natCast_inj.mp e1
      have e2' : c'.2 = u.2 := Int.natCast_inj.mp e2
      exact Prod.ext e1' e2'
    subst heq
    have hlt : idxOf n c' < v.length := by rw [hv]; exact idx_lt hinb
    exact getD_set_self hlt

/-! ## Preservation of the structural invariant -/

theorem chain_of_disc {n : Nat} {v : List Bool} {m : PMap} {q : List Cell}
    (H : Inv0 n v m q) {x : Cell} (hx : disc m x) : ∃ l, ChainL m x l := by
  rcases hx with h | ⟨e, he, hk⟩
  · subst h
    exact ⟨[(0, 0)], ChainL.base H.no_parent0⟩
  · subst hk
    exact H.keys_chain e he

theorem inv0_tail {n : Nat} {v : List Bool} {m : PMap} {c : Cell}
    {rest : List Cell} (H : Inv0 n v m (c :: rest)) : Inv0 n v m rest :=
  ⟨H.vlen, H.v0,
    fun x hx => H.q_inb x (List.mem_cons_of_mem _ hx),
    fun x hx => H.q_vis x (List.mem_cons_of_mem _ hx),
    H.keys_inb, H.keys_vis, H.vals_disc, H.no_parent0,
    fun x hx => H.q_chain x (List.mem_cons_of_mem _ hx),
    H.keys_chain⟩

theorem tryDir_inv0 {grid : List Nat} {n : Nat} (hn : 1 ≤ n) {c : Cell}
    {v : List Bool} {m : PMap} {q : List Cell} {d : Int × Int}
    {v' : List Bool} {m' : PMap} {q' : List Cell}
    (he : tryDir grid n c (v, m, q) d = (v', m', q'))
    (H : Inv0 n v m q) (hc : disc m c) :
    Inv0 n v' m' q' ∧ disc m' c ∧
      ∃ k ≤ 1, v'.count true = v.count true + k ∧
        q'.length = q.length + k := by
  rcases tryDir_eq grid n c v m q d with h |
    ⟨c', hinb, hfree, hunvis, hc1, hc2, h⟩ <;> rw [h] at he <;>
    injection he with hv hmq <;> injection hmq with hm hq <;>
    subst hv <;> subst hm <;> subst hq
  · exact ⟨H, hc, 0, by omega, by omega, by omega⟩
  · have hfresh : ¬ disc m c' := by
      intro hd
      rcases hd with h0 | ⟨e, hem, hek⟩
      · rw [h0, idx_zero] at hunvis
        rw [H.v0] at hunvis
        cases hunvis
      · have hvis := H.keys_vis e hem
        rw [hek] at hvis
        rw [hvis] at hunvis
        cases hunvis
    have hc'0 : c' ≠ (0, 0) := by
      intro h0
      exact hfresh (by rw [h0]; exact disc_start m)
    have hidxlt : idxOf n c' < v.length := by
      rw [H.vlen]; exact idx_lt hinb
    obtain ⟨lc, hlc⟩ := chain_of_disc H hc
    have hstep : ChainL ((c', c) :: m) c' (c' :: lc) :=
      ChainL.step c' c lc (by rw [lookupP_cons, if_pos rfl])
        (chainL_insert_fwd hfresh hlc)
    refine ⟨⟨?_, ?_, ?_, ?_, ?_, ?_, ?_, ?_, ?_, ?_⟩, disc_mono_cons hc,
      1, le_refl 1, count_set_true hidxlt hunvis, by simp⟩
    · rw [List.length_set, H.vlen]
    · have h0ne : idxOf n c' ≠ 0 :=
        fun h => hc'0 ((idx_eq_zero_iff hinb hn).mp h)
      rw [getD_set_ne h0ne]
      exact H.v0
    · intro x hx
      rcases List.mem_append.mp hx with hx | hx
      · exact H.q_inb x hx
      · rw [List.mem_singleton.mp hx]; exact hinb
    · intro x hx
      rcases List.mem_append.mp hx with hx | hx
      · exact getD_set_mono (H.q_vis x hx)
      · rw [List.mem_singleton.mp hx]; exact getD_set_self hidxlt
    · intro e he
      rcases List.mem_cons.mp he with he | he
      · rw [he]; exact hinb
      · exact H.keys_inb e he
    · intro e he
      rcases List.mem_cons.mp he with he | he
      · rw [he]; exact getD_set_self hidxlt
      · exact getD_set_mono (H.keys_vis e he)
    · intro e he
      rcases List.mem_cons.mp he with he | he
      · rw [he]; exact disc_mono_cons hc
      · exact disc_mono_cons (H.vals_disc e he)
    · rw [lookupP_cons, if_neg (fun h => hc'0 h.symm)]
      exact H.no_parent0
    · intro x hx
      rcases List.mem_append.mp hx with hx | hx
      · obtain ⟨l, hl⟩ := H.q_chain x hx
        exact ⟨l, chainL_insert_fwd hfresh hl⟩
      · rw [List.mem_singleton.mp hx]
        exact ⟨c' :: lc, hstep⟩
    · intro e he
      rcases List.mem_cons.mp he with he | he
      · rw [he]
        exact ⟨c' :: lc, hstep⟩
      · obtain ⟨l, hl⟩ := H.keys_chain e he
        exact ⟨l, chainL_insert_fwd hfresh hl⟩

theorem expand_inv0 {grid : List Nat} {n : Nat} (hn : 1 ≤ n) {c : Cell}
    {v : List Bool} {m : PMap} {q : List Cell}
    {v' : List Bool} {m' : PMap} {q' : List Cell}
    (he : expand grid n c (v, m, q) = (v', m', q'))
    (H : Inv0 n v m q) (hc : disc m c) :
    Inv0 n v' m' q' ∧
      ∃ k ≤ 4, v'.count true = v.count true + k ∧
        q'.length = q.length + k := by
  rcases e1 : tryDir grid n c (v, m, q) (1, 0) with ⟨v1, m1, q1⟩
  obtain ⟨H1, hd1, k1, hk1, hcnt1, hlen1⟩ := tryDir_inv0 hn e1 H hc
  rcases e2 : tryDir grid n c (v1, m1, q1) (0, 1) with ⟨v2, m2, q2⟩
  obtain ⟨H2, hd2, k2, hk2, hcnt2, hlen2⟩ := tryDir_inv0 hn e2 H1 hd1
  rcases e3 : tryDir grid n c (v2, m2, q2) (-1, 0) with ⟨v3, m3, q3⟩
  obtain ⟨H3, hd3, k3, hk3, hcnt3, hlen3⟩ := tryDir_inv0 hn e3 H2 hd2
  rcases e4 : tryDir grid n c (v3, m3, q3) (0, -1) with ⟨v4, m4, q4⟩
  obtain ⟨H4, hd4, k4, hk4, hcnt4, hlen4⟩ := tryDir_inv0 hn e4 H3 hd3
  have hfold : expand grid n c (v, m, q) = (v4, m4, q4) := by
    show List.foldl (tryDir grid n c) (v, m, q) dirs = (v4, m4, q4)
    rw [dirs]
    simp only [List.foldl_cons, List.foldl_nil]
    rw [e1, e2, e3, e4]
  rw [hfold] at he
  injection he with hv hmq
  injection hmq with hm hq
  subst hv; subst hm; subst hq
  exact ⟨H4, k1 + k2 + k3 + k4, by omega, by omega, by omega⟩

/-! ## Termination of the BFS loop -/

theorem bfsLoop_total {grid : List Nat} {n : Nat} (hn : 1 ≤ n) :
    ∀ (fuel : Nat) (q : List Cell) (v : List Bool) (m : PMap),
      Inv0 n v m q → q.length + (n * n - v.count true) ≤ fuel →
      ∃ p, bfsLoop grid n fuel q v m = some p := by
  intro fuel
  induction fuel with
  | zero =>
    intro q v m H hle
    cases q with
    | nil => exact ⟨[], by simp [bfsLoop]⟩
    | cons c rest => simp only [List.length_cons] at hle; omega
  | succ f ih =>
    intro q v m H hle
    cases q with
    | nil => exact ⟨[], by simp [bfsLoop]⟩
    | cons c rest =>
      obtain ⟨lc, hlc⟩ := H.q_chain c (List.mem_cons_self _ _)
      by_cases hdest : c = (n - 1, n - 1)
      · refine ⟨lc.reverse, ?_⟩
        simp only [bfsLoop]
        rw [if_pos hdest]
        exact build_path_of_chain hlc
      · have hcdisc : disc m c := chainL_head_disc hlc
        rcases he : expand grid n c (v, m, rest) with ⟨v', m', q'⟩
        obtain ⟨H', k, hk, hcnt, hlen⟩ :=
          expand_inv0 hn he (inv0_tail H) hcdisc
        have hcle : v'.count true ≤ n * n := by
          rw [← H'.vlen]; exact List.count_le_length true v'
        obtain ⟨p, hp⟩ := ih q' v' m' H' (by
          simp only [List.length_cons] at hle
          omega)
        refine ⟨p, ?_⟩
        simp only [bfsLoop]
        rw [if_neg hdest, he]
        exact hp

theorem inv0_init {n : Nat} (hn : 1 ≤ n) :
    Inv0 n ((List.replicate (n * n) false).set 0 true) [] [(0, 0)] := by
  have hnn : 1 ≤ n * n := one_le_sq n hn
  have hv0 : ((List.replicate (n * n) false).set 0 true).getD 0 false = true :=
    getD_set_self (by simp; omega)
  refine ⟨by simp, hv0, ?_, ?_, by simp, by simp, by simp, rfl, ?_, by simp⟩
  · intro x hx
    rw [List.mem_singleton.mp hx]
    exact ⟨hn, hn⟩
  · intro x hx
    rw [List.mem_singleton.mp hx, idx_zero]
    exact hv0
  · intro x hx
    rw [List.mem_singleton.mp hx]
    exact ⟨[(0, 0)], ChainL.base rfl⟩

theorem count_init {n : Nat} (hn : 1 ≤ n) :
    ((List.replicate (n * n) false).set 0 true).count true = 1 := by
  have hnn : 1 ≤ n * n := one_le_sq n hn
  rw [count_set_true (by simp; omega) getD_replicate_false]
  simp [List.count_replicate]

/-- Claim C10: on every valid input (`n ≥ 1`, cell sequence of length
`n * n`) `bfs` terminates with a result: the fuel `n * n` given to the main
loop (the visit-on-discovery marking bounds its iterations) and the fuel
`parent.length` given to the `build_path` loop (the parent chain reaches
the start without cycling) both suffice, and no grid read panics. -/
theorem bfs_terminates (grid : List Nat) (n : Nat) (hn : 1 ≤ n)
    (hlen : grid.length = n * n) : ∃ p, bfs grid n = some p := by
  have hnn : 1 ≤ n * n := one_le_sq n hn
  have hpos : 0 < grid.length := by omega
  have h0 : grid[0]? = some (grid.getD 0 0) := by
    rw [List.getElem?_eq_getElem hpos, List.getD_eq_getElem grid 0 hpos]
  unfold bfs
  rw [h0]
  dsimp only
  by_cases hg0 : grid.getD 0 0 = 0
  · rw [if_pos hg0]; exact ⟨[], rfl⟩
  · rw [if_neg hg0, if_neg (show ¬ n = 0 by omega)]
    have hlt : n * n - 1 < grid.length := by omega
    rw [List.getElem?_eq_getElem hlt]
    dsimp only
    by_cases hg1 : grid[n * n - 1] = 0
    · rw [if_pos hg1]; exact ⟨[], rfl⟩
    · rw [if_neg hg1]
      apply bfsLoop_total hn (n * n) [(0, 0)] _ [] (inv0_init hn)
      rw [count_init hn]
      simp only [List.length_cons, List.length_nil]
      omega

/-- Witness for C10 at the full 2×2 grid. -/
theorem bfs_terminates_witness :
    (1 ≤ 2 ∧ ([1, 1, 1, 1] : List Nat).length = 2 * 2) ∧
    ∃ p, bfs [1, 1, 1, 1] 2 = some p :=
  ⟨⟨by decide, by decide⟩,
    bfs_terminates [1, 1, 1, 1] 2 (by decide) (by decide)⟩

/-! ## Preservation of the full BFS invariant -/

theorem labelIs_insert_fwd {m : PMap} {c' p0 : Cell} (hf : ¬ disc m c')
    {x : Cell} {k : Nat} (h : labelIs m x k) : labelIs ((c', p0) :: m) x k := by
  obtain ⟨l, hl, hlen⟩ := h
  exact ⟨l, chainL_insert_fwd hf hl, hlen⟩

theorem adjacent_cases {c u : Cell} (h : adjacent c u) :
    ((u.1 : Int) = (c.1 : Int) + 1 ∧ (u.2 : Int) = (c.2 : Int)) ∨
    ((u.1 : Int) = (c.1 : Int) ∧ (u.2 : Int) = (c.2 : Int) + 1) ∨
    ((u.1 : Int) = (c.1 : Int) + (-1) ∧ (u.2 : Int) = (c.2 : Int)) ∨
    ((u.1 : Int) = (c.1 : Int) ∧ (u.2 : Int) = (c.2 : Int) + (-1)) := by
  unfold adjacent at h
  omega

theorem tryDir_vis_mono {grid : List Nat} {n : Nat} {c : Cell}
    {v : List Bool} {m : PMap} {q : List Cell} {d : Int × Int}
    {v' : List Bool} {m' : PMap} {q' : List Cell}
    (he : tryDir grid n c (v, m, q) d = (v', m', q')) {i : Nat}
    (h : v.getD i false = true) : v'.getD i false = true := by
  rcases tryDir_eq grid n c v m q d with h1 | ⟨c', _, _, _, _, _, h1⟩ <;>
    rw [h1] at he <;> injection he with hv _ <;> subst hv
  · exact h
  · exact getD_set_mono h

theorem tryDir_midinv {grid : List Nat} {n : Nat} (hn : 1 ≤ n) {c : Cell}
    {dl : Nat} {d : Int × Int} (hd : d ∈ dirs)
    {v : List Bool} {m : PMap} {q : List Cell}
    {v' : List Bool} {m' : PMap} {q' : List Cell}
    (he : tryDir grid n c (v, m, q) d = (v', m', q'))
    (H : MidInv grid n c dl v m q) : MidInv grid n c dl v' m' q' := by
  obtain ⟨HI, hdisc', -⟩ := tryDir_inv0 hn he H.inv0 H.c_disc
  rcases tryDir_eq grid n c v m q d with h |
    ⟨c', hinb, hfree, hunvis, hc1, hc2, h⟩ <;> rw [h] at he <;>
    injection he with hv hmq <;> injection hmq with hm hq <;>
    subst hv <;> subst hm <;> subst hq
  · exact H
  · have hfresh : ¬ disc m c' := by
      intro hdd
      rw [← H.vis_iff c' hinb] at hdd
      rw [hdd] at hunvis
      cases hunvis
    have hadj : adjacent c' c := dir_adjacent hd hc1 hc2
    have hidxlt : idxOf n c' < v.length := by
      rw [H.inv0.vlen]; exact idx_lt hinb
    obtain ⟨lc, hlc, hlen⟩ := H.c_label
    have hstep : ChainL ((c', c) :: m) c' (c' :: lc) :=
      ChainL.step c' c lc (by rw [lookupP_cons, if_pos rfl])
        (chainL_insert_fwd hfresh hlc)
    have hfree' : freeCell grid n c' := hfree
    refine ⟨HI, ?_, ?_, ?_, ?_, ?_, ?_, ?_, ?_, hdisc', ?_⟩
    · intro x hxinb
      by_cases hx : x = c'
      · subst hx
        rw [getD_set_self hidxlt]
        simp only [true_iff]
        exact Or.inr ⟨(x, c), List.mem_cons_self _ _, rfl⟩
      · have hne : idxOf n c' ≠ idxOf n x :=
          fun hh => hx (idx_inj hxinb hinb hh.symm)
        rw [getD_set_ne hne, H.vis_iff x hxinb, disc_cons_iff]
        constructor
        · exact Or.inr
        · rintro (h1 | h1)
          · exact absurd h1 hx
          · exact h1
    · intro x hx
      rcases disc_cons_iff.mp hx with h1 | h1
      · rw [h1]; exact hinb
      · exact H.disc_inb x h1
    · intro x hx
      rcases disc_cons_iff.mp hx with h1 | h1
      · rw [h1]; exact hfree'
      · exact H.disc_free x h1
    · intro e he
      rcases List.mem_cons.mp he with h1 | h1
      · rw [h1]; exact hadj
      · exact H.pairs_adj e h1
    · obtain ⟨q1, q2, hqe, hq1, hq2⟩ := H.layers
      refine ⟨q1, q2 ++ [c'], by rw [hqe, List.append_assoc], ?_, ?_⟩
      · exact fun x hx => labelIs_insert_fwd hfresh (hq1 x hx)
      · intro x hx
        rcases List.mem_append.mp hx with h1 | h1
        · exact labelIs_insert_fwd hfresh (hq2 x h1)
        · rw [List.mem_singleton.mp h1]
          exact ⟨c' :: lc, hstep, by simp [hlen]⟩
    · intro x hx l hl
      rcases disc_cons_iff.mp hx with h1 | h1
      · subst h1
        have hleq := chainL_func hl hstep
        subst hleq
        have hxdist : IsDist grid n c dl := by
          have := H.dist_ok c H.c_disc lc hlc
          rwa [hlen, Nat.add_sub_cancel] at this
        constructor
        · have hw : Walk grid n (0, 0) x (dl + 1) :=
            walk_snoc hxdist.1 (adjacent_symm hadj) hinb hfree'
          simpa [hlen] using hw
        · intro j hj
          have := H.frontier x hinb hfree' hfresh j hj
          simp [hlen]
          omega
      · have hl' := chainL_insert_bwd hfresh H.inv0.vals_disc h1 hl
        exact H.dist_ok x h1 l hl'
    · intro w hw hwq hwc u hadju huinb hufree
      rcases disc_cons_iff.mp hw with h1 | h1
      · exfalso
        apply hwq
        rw [h1]
        exact List.mem_append.mpr (Or.inr (List.mem_singleton.mpr rfl))
      · have hwq' : w ∉ q := fun hh => hwq (List.mem_append.mpr (Or.inl hh))
        exact disc_mono_cons (H.expanded w h1 hwq' hwc u hadju huinb hufree)
    · intro u huinb hufree hund j hwj
      have : ¬ disc m u := fun hh => hund (disc_mono_cons hh)
      exact H.frontier u huinb hufree this j hwj
    · exact labelIs_insert_fwd hfresh H.c_label

theorem expand_midinv {grid : List Nat} {n : Nat} (hn : 1 ≤ n) {c : Cell}
    {dl : Nat} {v : List Bool} {m : PMap} {q : List Cell}
    {v' : List Bool} {m' : PMap} {q' : List Cell}
    (he : expand grid n c (v, m, q) = (v', m', q'))
    (H : MidInv grid n c dl v m q) :
    MidInv grid n c dl v' m' q' ∧
      ∀ u, adjacent c u → inb n u → freeCell grid n u →
        v'.getD (idxOf n u) false = true := by
  rcases e1 : tryDir grid n c (v, m, q) (1, 0) with ⟨v1, m1, q1⟩
  have H1 := tryDir_midinv hn (by simp [dirs]) e1 H
  rcases e2 : tryDir grid n c (v1, m1, q1) (0, 1) with ⟨v2, m2, q2⟩
  have H2 := tryDir_midinv hn (by simp [dirs]) e2 H1
  rcases e3 : tryDir grid n c (v2, m2, q2) (-1, 0) with ⟨v3, m3, q3⟩
  have H3 := tryDir_midinv hn (by simp [dirs]) e3 H2
  rcases e4 : tryDir grid n c (v3, m3, q3) (0, -1) with ⟨v4, m4, q4⟩
  have H4 := tryDir_midinv hn (by simp [dirs]) e4 H3
  have hfold : expand grid n c (v, m, q) = (v4, m4, q4) := by
    show List.foldl (tryDir grid n c) (v, m, q) dirs = (v4, m4, q4)
    rw [dirs]
    simp only [List.foldl_cons, List.foldl_nil]
    rw [e1, e2, e3, e4]
  rw [hfold] at he
  injection he with hv hmq
  injection hmq with hm hq
  subst hv; subst hm; subst hq
  refine ⟨H4, ?_⟩
  intro u hadj huinb hufree
  rcases adjacent_cases hadj with ⟨ha, hb⟩ | ⟨ha, hb⟩ | ⟨ha, hb⟩ | ⟨ha, hb⟩
  · have h := tryDir_covers (d := (1, 0)) (m := m) (q := q)
      H.inv0.vlen huinb hufree ha hb
    rw [e1] at h
    exact tryDir_vis_mono e4 (tryDir_vis_mono e3 (tryDir_vis_mono e2 h))
  · have h := tryDir_covers (d := (0, 1)) (m := m1) (q := q1)
      H1.inv0.vlen huinb hufree ha hb
    rw [e2] at h
    exact tryDir_vis_mono e4 (tryDir_vis_mono e3 h)
  · have h := tryDir_covers (d := (-1, 0)) (m := m2) (q := q2)
      H2.inv0.vlen huinb hufree ha hb
    rw [e3] at h
    exact tryDir_vis_mono e4 h
  · have h := tryDir_covers (d := (0, -1)) (m := m3) (q := q3)
      H3.inv0.vlen huinb hufree ha hb
    rw [e4] at h
    exact h

/-- When the whole queue sits at distance `d0 + 1`, every undiscovered
free cell is at distance at least `d0 + 2`: its shortest-walk predecessor
is discovered, fully expanded and would have discovered it. -/
theorem frontier_shift {grid : List Nat} {n : Nat} {v : List Bool}
    {m : PMap} {q : List Cell} {d0 : Nat} (H0 : Inv0 n v m q)
    (HX : InvX grid n v m q d0)
    (hall : ∀ x ∈ q, labelIs m x (d0 + 1)) :
    ∀ u, inb n u → freeCell grid n u → ¬ disc m u →
      ∀ j, Walk grid n (0, 0) u j → d0 + 2 ≤ j := by
  intro u hinb hfree hnd j hw
  have h1 : d0 + 1 ≤ j := HX.frontier u hinb hfree hnd j hw
  by_contra hlt
  have hj : j = d0 + 1 := by omega
  subst hj
  obtain ⟨w, hww, hadj⟩ := walk_decomp d0 _ _ hw
  obtain ⟨hwinb, hwfree⟩ := walk_dst hww
  have hwdisc : disc m w := by
    by_contra hnw
    have := HX.frontier w hwinb hwfree hnw d0 hww
    omega
  obtain ⟨lw, hlw⟩ := chain_of_disc H0 hwdisc
  have hdw := HX.dist_ok w hwdisc lw hlw
  have hle : lw.length - 1 ≤ d0 := hdw.2 d0 hww
  have hwnotq : w ∉ q := by
    intro hwq
    obtain ⟨l', hl', hlen'⟩ := hall w hwq
    rw [chainL_func hlw hl'] at hle
    rw [hlen'] at hle
    omega
  exact hnd (HX.expanded w hwdisc hwnotq u hadj hinb hfree)

theorem pop_midinv {grid : List Nat} {n : Nat} {v : List Bool} {m : PMap}
    {c : Cell} {rest : List Cell} {d0 : Nat}
    (H0 : Inv0 n v m (c :: rest)) (HX : InvX grid n v m (c :: rest) d0) :
    ∃ d, MidInv grid n c d v m rest := by
  obtain ⟨q1, q2, hq, hq1, hq2⟩ := HX.layers
  cases q1 with
  | cons a t =>
    rw [List.cons_append] at hq
    injection hq with hac hrest
    subst hac
    have hclab : labelIs m c d0 := hq1 c (List.mem_cons_self _ _)
    obtain ⟨lc, hlc, -⟩ := id hclab
    refine ⟨d0, inv0_tail H0, HX.vis_iff, HX.disc_inb, HX.disc_free,
      HX.pairs_adj, ⟨t, q2, hrest,
        fun x hx => hq1 x (List.mem_cons_of_mem _ hx), hq2⟩,
      HX.dist_ok, ?_, HX.frontier, chainL_head_disc hlc, hclab⟩
    intro w hw hwrest hwc u hadju huinb hufree
    have hwq : w ∉ c :: rest := by
      rw [List.mem_cons]
      rintro (h | h)
      · exact hwc h
      · exact hwrest h
    exact HX.expanded w hw hwq u hadju huinb hufree
  | nil =>
    rw [List.nil_append] at hq
    subst hq
    have hall : ∀ x ∈ c :: rest, labelIs m x (d0 + 1) := hq2
    have hclab : labelIs m c (d0 + 1) := hall c (List.mem_cons_self _ _)
    obtain ⟨lc, hlc, -⟩ := id hclab
    refine ⟨d0 + 1, inv0_tail H0, HX.vis_iff, HX.disc_inb, HX.disc_free,
      HX.pairs_adj, ⟨rest, [], by simp,
        fun x hx => hall x (List.mem_cons_of_mem _ hx), by simp⟩,
      HX.dist_ok, ?_, frontier_shift H0 HX hall, chainL_head_disc hlc, hclab⟩
    intro w hw hwrest hwc u hadju huinb hufree
    have hwq : w ∉ c :: rest := by
      rw [List.mem_cons]
      rintro (h | h)
      · exact hwc h
      · exact hwrest h
    exact HX.expanded w hw hwq u hadju huinb hufree

theorem invX_of_mid {grid : List Nat} {n : Nat} {c : Cell} {d : Nat}
    {v : List Bool} {m : PMap} {q : List Cell}
    (H : MidInv grid n c d v m q)
    (hcov : ∀ u, adjacent c u → inb n u → freeCell grid n u →
      v.getD (idxOf n u) false = true) : InvX grid n v m q d := by
  refine ⟨H.vis_iff, H.disc_inb, H.disc_free, H.pairs_adj, H.layers,
    H.dist_ok, ?_, H.frontier⟩
  intro w hw hwq u hadju huinb hufree
  by_cases hwc : w = c
  · subst hwc
    have := hcov u hadju huinb hufree
    exact (H.vis_iff u huinb).mp this
  · exact H.expanded w hw hwq hwc u hadju huinb hufree

theorem goodpath_of_dest {grid : List Nat} {n : Nat} {v : List Bool}
    {m : PMap} {q : List Cell} {dX : Nat} (HX : InvX grid n v m q dX)
    {lc : List Cell} (hlc : ChainL m (n - 1, n - 1) lc) :
    GoodPath grid n lc.reverse := by
  have hdisc : disc m (n - 1, n - 1) := chainL_head_disc hlc
  obtain ⟨t, hsh⟩ := chainL_shape hlc
  refine ⟨?_, ?_, ?_, ?_, ?_⟩
  · rw [List.head?_reverse]
    exact chainL_last hlc
  · rw [List.getLast?_reverse, hsh]
    rfl
  · intro x hx
    rw [List.mem_reverse] at hx
    have hxd := chainL_nodes_disc hlc x hx
    exact ⟨HX.disc_inb x hxd, HX.disc_free x hxd⟩
  · rw [List.chain'_reverse]
    exact List.Chain'.imp (fun a b hab => adjacent_symm hab)
      (chainL_chain'_adj hlc HX.pairs_adj)
  · rw [List.length_reverse]
    exact HX.dist_ok _ hdisc lc hlc

/-! ## Soundness of the BFS loop -/

theorem bfsLoop_sound {grid : List Nat} {n : Nat} (hn : 1 ≤ n) :
    ∀ (fuel : Nat) (q : List Cell) (v : List Bool) (m : PMap) (p : List Cell),
      Inv0 n v m q → (∃ d, InvX grid n v m q d) →
      bfsLoop grid n fuel q v m = some p →
      p = [] ∨ GoodPath grid n p := by
  intro fuel
  induction fuel with
  | zero =>
    intro q v m p H HX hp
    cases q with
    | nil =>
      simp [bfsLoop] at hp
      left; exact hp
    | cons c rest => simp [bfsLoop] at hp
  | succ f ih =>
    intro q v m p H HX hp
    obtain ⟨dX, HXd⟩ := HX
    cases q with
    | nil =>
      simp [bfsLoop] at hp
      left; exact hp
    | cons c rest =>
      by_cases hdest : c = (n - 1, n - 1)
      · simp only [bfsLoop] at hp
        rw [if_pos hdest] at hp
        obtain ⟨lc, hlc⟩ := H.q_chain c (List.mem_cons_self _ _)
        subst hdest
        rw [build_path_of_chain hlc] at hp
        injection hp with hp
        right
        rw [← hp]
        exact goodpath_of_dest HXd hlc
      · obtain ⟨d, HM⟩ := pop_midinv H HXd
        rcases he : expand grid n c (v, m, rest) with ⟨v', m', q'⟩
        obtain ⟨HM', hcov⟩ := expand_midinv hn he HM
        have HX' := invX_of_mid HM' hcov
        simp only [bfsLoop] at hp
        rw [if_neg hdest, he] at hp
        exact ih q' v' m' p HM'.inv0 ⟨d, HX'⟩ hp

theorem disc_nil_iff {x : Cell} : disc [] x ↔ x = (0, 0) := by simp [disc]

theorem invX_init {grid : List Nat} {n : Nat} (hn : 1 ≤ n)
    (hlen : grid.length = n * n) (hg0 : grid.getD 0 0 ≠ 0)
    (h01 : ∀ x ∈ grid, x = 0 ∨ x = 1) :
    InvX grid n ((List.replicate (n * n) false).set 0 true) [] [(0, 0)] 0 := by
  have hnn : 1 ≤ n * n := one_le_sq n hn
  have hfree0 : freeCell grid n (0, 0) := by
    unfold freeCell
    rw [idx_zero]
    have hmem : grid.getD 0 0 ∈ grid := by
      rw [List.getD_eq_getElem grid 0 (by omega)]
      exact List.getElem_mem _
    rcases h01 _ hmem with h | h
    · exact absurd h hg0
    · exact h
  have hv0 : ((List.replicate (n * n) false).set 0 true).getD 0 false = true :=
    getD_set_self (by simp; omega)
  refine ⟨?_, ?_, ?_, by simp, ?_, ?_, ?_, ?_⟩
  · intro x hxinb
    by_cases hx : x = (0, 0)
    · subst hx
      rw [idx_zero, hv0]
      simp [disc_nil_iff]
    · have hne : (0 : Nat) ≠ idxOf n x :=
        fun hh => hx ((idx_eq_zero_iff hxinb hn).mp hh.symm)
      rw [getD_set_ne hne, getD_replicate_false]
      constructor
      · intro hh; cases hh
      · intro hh; exact absurd (disc_nil_iff.mp hh) hx
  · intro x hx
    rw [disc_nil_iff.mp hx]
    exact ⟨hn, hn⟩
  · intro x hx
    rw [disc_nil_iff.mp hx]
    exact hfree0
  · refine ⟨[(0, 0)], [], by simp, ?_, by simp⟩
    intro x hx
    rw [List.mem_singleton.mp hx]
    exact ⟨[(0, 0)], ChainL.base rfl, rfl⟩
  · intro x hx l hl
    rw [disc_nil_iff.mp hx] at hl ⊢
    have hll := chainL_func hl (ChainL.base rfl)
    subst hll
    exact ⟨Walk.nil _ ⟨hn, hn⟩ hfree0, fun j _ => Nat.zero_le j⟩
  · intro w hw hwq
    exfalso
    apply hwq
    rw [disc_nil_iff.mp hw]
    exact List.mem_singleton.mpr rfl
  · intro u huinb hufree hund j hwj
    rcases j with _ | j
    · exfalso
      apply hund
      rw [disc_nil_iff]
      exact (walk_zero hwj).symm
    · omega

/-- Master soundness theorem: a non-empty result of `bfs` on a valid 0/1
grid is a shortest free walk from corner to corner. -/
theorem bfs_sound {grid : List Nat} {n : Nat} {p : List Cell} (hn : 1 ≤ n)
    (hlen : grid.length = n * n) (h01 : ∀ x ∈ grid, x = 0 ∨ x = 1)
    (hbfs : bfs grid n = some p) (hne : p ≠ []) : GoodPath grid n p := by
  have hnn : 1 ≤ n * n := one_le_sq n hn
  have hpos : 0 < grid.length := by omega
  have h0 : grid[0]? = some (grid.getD 0 0) := by
    rw [List.getElem?_eq_getElem hpos, List.getD_eq_getElem grid 0 hpos]
  unfold bfs at hbfs
  rw [h0] at hbfs
  dsimp only at hbfs
  by_cases hg0 : grid.getD 0 0 = 0
  · rw [if_pos hg0] at hbfs
    injection hbfs with hbfs
    exact absurd hbfs.symm hne
  · rw [if_neg hg0, if_neg (show ¬ n = 0 by omega)] at hbfs
    have hlt : n * n - 1 < grid.length := by omega
    rw [List.getElem?_eq_getElem hlt] at hbfs
    dsimp only at hbfs
    by_cases hg1 : grid[n * n - 1] = 0
    · rw [if_pos hg1] at hbfs
      injection hbfs with hbfs
      exact absurd hbfs.symm hne
    · rw [if_neg hg1] at hbfs
      rcases bfsLoop_sound hn (n * n) [(0, 0)] _ [] p (inv0_init hn)
        ⟨0, invX_init hn hlen hg0 h01⟩ hbfs with h | h
      · exact absurd h hne
      · exact h

theorem new_path_bfs {grid : List Nat} {n : Nat} {pf : PathFinder}
    (h : PathFinder.new grid n = some pf) : bfs grid n = some pf.path := by
  unfold PathFinder.new at h
  rcases hb : bfs grid n with _ | q
  · rw [hb] at h; cases h
  · rw [hb] at h
    simp only [Option.map_some'] at h
    injection h with h
    rw [← h]

theorem has_path_ne {pf : PathFinder} (h : pf.has_path = true) :
    pf.path ≠ [] := by
  unfold PathFinder.has_path at h
  simpa using h

/-- Claim C2 (code bug witness): the code performs no input validation.
With `cells.length = 5 ≠ 4 = size * size` construction succeeds silently;
with `size = 0` and `cells = [0, 0]` construction also succeeds and returns
an empty path; with `cells = [1]` and `size = 2` the code reads the cell
sequence out of bounds (a panic, modelled `none`) instead of reporting an
`InvalidInput` failure. -/
theorem invalid_input_accepted :
    PathFinder.new [1, 1, 1, 1, 1] 2 = some ⟨[(0, 0), (1, 0), (1, 1)]⟩ ∧
    PathFinder.new [0, 0] 0 = some ⟨[]⟩ ∧
    bfs [1] 2 = none := by decide

/-- Claim C3: on a valid grid whose start or destination cell is blocked,
construction succeeds, `has_path()` is `false` and `path()` is empty. -/
theorem blocked_endpoint_no_path (grid : List Nat) (n : Nat) (hn : 1 ≤ n)
    (hlen : grid.length = n * n)
    (hblock : grid.getD (idxOf n (0, 0)) 0 = 0 ∨
      grid.getD (idxOf n (n - 1, n - 1)) 0 = 0) :
    ∃ pf, PathFinder.new grid n = some pf ∧ pf.has_path = false ∧
      pf.path_flat = [] := by
  refine ⟨⟨[]⟩, ?_, rfl, rfl⟩
  rw [PathFinder.new, bfs_blocked grid n hn hlen hblock]
  rfl

/-- Witness for C3 at the concrete grid `[0, 1, 1, 1]`, size `2`. -/
theorem blocked_endpoint_no_path_witness :
    (1 ≤ 2 ∧ ([0, 1, 1, 1] : List Nat).length = 2 * 2 ∧
      (([0, 1, 1, 1] : List Nat).getD (idxOf 2 (0, 0)) 0 = 0 ∨
        ([0, 1, 1, 1] : List Nat).getD (idxOf 2 (2 - 1, 2 - 1)) 0 = 0)) ∧
    (∃ pf, PathFinder.new [0, 1, 1, 1] 2 = some pf ∧ pf.has_path = false ∧
      pf.path_flat = []) :=
  ⟨⟨by decide, by decide, by decide⟩,
    blocked_endpoint_no_path [0, 1, 1, 1] 2 (by decide) (by decide)
      (by decide)⟩

/-- Claim C5: `path()` is the stored path flattened: twice as long, with
the row of the `i`-th cell at position `2*i` and its column at position
`2*i + 1`, and empty exactly when `has_path()` is `false`. -/
theorem path_flat_interleaves (pf : PathFinder) :
    pf.path_flat.length = 2 * pf.path.length ∧
    (∀ i, pf.path_flat[2 * i]? = pf.path[i]?.map Prod.fst ∧
      pf.path_flat[2 * i + 1]? = pf.path[i]?.map Prod.snd) ∧
    (pf.path_flat = [] ↔ pf.has_path = false) := by
  refine ⟨flatMap_pair_length pf.path, fun i => flatMap_pair_get pf.path i, ?_⟩
  cases hp : pf.path with
  | nil => simp [PathFinder.path_flat, PathFinder.has_path, hp]
  | cons a t =>
    simp [PathFinder.path_flat, PathFinder.has_path, hp, List.flatMap_cons]

/-- Witness for C5 at a two-cell stored path. -/
theorem path_flat_interleaves_witness :
    (PathFinder.mk [(0, 0), (1, 0)]).path_flat.length =
        2 * (PathFinder.mk [(0, 0), (1, 0)]).path.length ∧
    (∀ i, (PathFinder.mk [(0, 0), (1, 0)]).path_flat[2 * i]? =
        (PathFinder.mk [(0, 0), (1, 0)]).path[i]?.map Prod.fst ∧
      (PathFinder.mk [(0, 0), (1, 0)]).path_flat[2 * i + 1]? =
        (PathFinder.mk [(0, 0), (1, 0)]).path[i]?.map Prod.snd) ∧
    ((PathFinder.mk [(0, 0), (1, 0)]).path_flat = [] ↔
      (PathFinder.mk [(0, 0), (1, 0)]).has_path = false) :=
  path_flat_interleaves ⟨[(0, 0), (1, 0)]⟩

/-- Claim C6: on the one-cell grid `[1]` the path exists and is exactly
`[(0, 0)]`; on `[0]` there is no path and `path()` is empty. -/
theorem one_cell_grid :
    PathFinder.new [1] 1 = some ⟨[(0, 0)]⟩ ∧
    (PathFinder.mk [(0, 0)]).has_path = true ∧
    PathFinder.new [0] 1 = some ⟨[]⟩ ∧
    (PathFinder.mk []).has_path = false ∧
    (PathFinder.mk []).path_flat = [] := by decide

/-- Claim C7, counterexample: on `cells = [1,1,1,1]`, `size = 2`, the
stored path has 3 cells, not 2 as claimed. -/
theorem scenario_a_cex :
    (PathFinder.new [1, 1, 1, 1] 2).map (fun pf => pf.path.length) = some 3 ∧
    (PathFinder.new [1, 1, 1, 1] 2).map (fun pf => pf.path.length) ≠
      some 2 := by decide

/-- Claim C7 as amended: on `cells = [1,1,1,1]`, `size = 2`, `has_path()`
is `true`, the stored path starts at `(0,0)`, ends at `(1,1)`, and has 3
cells (2 hops). -/
theorem scenario_a_amended :
    PathFinder.new [1, 1, 1, 1] 2 = some ⟨[(0, 0), (1, 0), (1, 1)]⟩ ∧
    (PathFinder.mk [(0, 0), (1, 0), (1, 1)]).has_path = true ∧
    (PathFinder.mk [(0, 0), (1, 0), (1, 1)]).path.head? = some (0, 0) ∧
    (PathFinder.mk [(0, 0), (1, 0), (1, 1)]).path.getLast? = some (1, 1) ∧
    (PathFinder.mk [(0, 0), (1, 0), (1, 1)]).path.length = 3 := by decide

/-- Claim C8: construction is deterministic — two constructions from the
same input store equal paths — and the neighbor order is the fixed
`+row, +col, -row, -col`. -/
theorem construction_deterministic (grid : List Nat) (n : Nat)
    (pf1 pf2 : PathFinder)
    (h1 : PathFinder.new grid n = some pf1)
    (h2 : PathFinder.new grid n = some pf2) :
    pf1.path = pf2.path ∧ dirs = [(1, 0), (0, 1), (-1, 0), (0, -1)] := by
  refine ⟨?_, rfl⟩
  rw [h1] at h2
  injection h2 with h
  rw [h]

/-- Witness for C8 at the one-cell grid. -/
theorem construction_deterministic_witness :
    (PathFinder.new [1] 1 = some ⟨[(0, 0)]⟩ ∧
      PathFinder.new [1] 1 = some ⟨[(0, 0)]⟩) ∧
    ((PathFinder.mk [(0, 0)]).path = (PathFinder.mk [(0, 0)]).path ∧
      dirs = [(1, 0), (0, 1), (-1, 0), (0, -1)]) :=
  ⟨⟨by decide, by decide⟩,
    construction_deterministic [1] 1 _ _ (by decide) (by decide)⟩

/-- Claim C1: on every valid input on which the constructed `PathFinder`
reports `has_path() == true`, the stored path is a shortest path — its hop
count (cells minus one) equals the minimum number of 4-neighbor moves from
`(0,0)` to `(n-1,n-1)` through free cells. -/
theorem bfs_finds_shortest_path (grid : List Nat) (n : Nat)
    (pf : PathFinder) (hn : 1 ≤ n) (hlen : grid.length = n * n)
    (h01 : ∀ x ∈ grid, x = 0 ∨ x = 1)
    (hpf : PathFinder.new grid n = some pf) (hhp : pf.has_path = true) :
    Walk grid n (0, 0) (n - 1, n - 1) (pf.path.length - 1) ∧
      ∀ j, Walk grid n (0, 0) (n - 1, n - 1) j → pf.path.length - 1 ≤ j := by
  have hg := bfs_sound hn hlen h01 (new_path_bfs hpf) (has_path_ne hhp)
  exact hg.2.2.2.2

/-- Witness for C1 at the one-cell grid `[1]`. -/
theorem bfs_finds_shortest_path_witness :
    (1 ≤ 1 ∧ ([1] : List Nat).length = 1 * 1 ∧
      (∀ x ∈ ([1] : List Nat), x = 0 ∨ x = 1) ∧
      PathFinder.new [1] 1 = some ⟨[(0, 0)]⟩ ∧
      (PathFinder.mk [(0, 0)]).has_path = true) ∧
    (Walk [1] 1 (0, 0) (1 - 1, 1 - 1)
        ((PathFinder.mk [(0, 0)]).path.length - 1) ∧
      ∀ j, Walk [1] 1 (0, 0) (1 - 1, 1 - 1) j →
        (PathFinder.mk [(0, 0)]).path.length - 1 ≤ j) :=
  ⟨⟨by decide, by decide, by decide, by decide, by decide⟩,
    bfs_finds_shortest_path [1] 1 ⟨[(0, 0)]⟩ (by decide) (by decide)
      (by decide) (by decide) (by decide)⟩

/-- Claim C4: on every valid input with `has_path() == true`, the stored
path starts at `(0,0)` and ends at `(n-1,n-1)`. -/
theorem path_endpoints (grid : List Nat) (n : Nat) (pf : PathFinder)
    (hn : 1 ≤ n) (hlen : grid.length = n * n)
    (h01 : ∀ x ∈ grid, x = 0 ∨ x = 1)
    (hpf : PathFinder.new grid n = some pf) (hhp : pf.has_path = true) :
    pf.path.head? = some (0, 0) ∧
      pf.path.getLast? = some (n - 1, n - 1) := by
  have hg := bfs_sound hn hlen h01 (new_path_bfs hpf) (has_path_ne hhp)
  exact ⟨hg.1, hg.2.1⟩

/-- Witness for C4 at the full 2×2 grid. -/
theorem path_endpoints_witness :
    (1 ≤ 2 ∧ ([1, 1, 1, 1] : List Nat).length = 2 * 2 ∧
      (∀ x ∈ ([1, 1, 1, 1] : List Nat), x = 0 ∨ x = 1) ∧
      PathFinder.new [1, 1, 1, 1] 2 = some ⟨[(0, 0), (1, 0), (1, 1)]⟩ ∧
      (PathFinder.mk [(0, 0), (1, 0), (1, 1)]).has_path = true) ∧
    ((PathFinder.mk [(0, 0), (1, 0), (1, 1)]).path.head? = some (0, 0) ∧
      (PathFinder.mk [(0, 0), (1, 0), (1, 1)]).path.getLast? =
        some (2 - 1, 2 - 1)) :=
  ⟨⟨by decide, by decide, by decide, by decide, by decide⟩,
    path_endpoints [1, 1, 1, 1] 2 ⟨[(0, 0), (1, 0), (1, 1)]⟩ (by decide)
      (by decide) (by decide) (by decide) (by decide)⟩

/-- Claim C9: every non-empty path returned by `bfs` on a valid input is a
walk through the grid: each cell is in bounds and free, and consecutive
cells are 4-adjacent. -/
theorem bfs_path_is_free_walk (grid : List Nat) (n : Nat) (p : List Cell)
    (hn : 1 ≤ n) (hlen : grid.length = n * n)
    (h01 : ∀ x ∈ grid, x = 0 ∨ x = 1)
    (hp : bfs grid n = some p) (hne : p ≠ []) :
    (∀ x ∈ p, inb n x ∧ freeCell grid n x) ∧ p.Chain' adjacent := by
  have hg := bfs_sound hn hlen h01 hp hne
  exact ⟨hg.2.2.1, hg.2.2.2.1⟩

/-- Witness for C9 at the 3×3 grid of the repository's own test. -/
theorem bfs_path_is_free_walk_witness :
    (1 ≤ 3 ∧ ([1, 1, 0, 0, 1, 1, 0, 1, 1] : List Nat).length = 3 * 3 ∧
      (∀ x ∈ ([1, 1, 0, 0, 1, 1, 0, 1, 1] : List Nat), x = 0 ∨ x = 1) ∧
      bfs [1, 1, 0, 0, 1, 1, 0, 1, 1] 3 =
        some [(0, 0), (0, 1), (1, 1), (2, 1), (2, 2)] ∧
      ([(0, 0), (0, 1), (1, 1), (2, 1), (2, 2)] : List Cell) ≠ []) ∧
    ((∀ x ∈ ([(0, 0), (0, 1), (1, 1), (2, 1), (2, 2)] : List Cell),
        inb 3 x ∧ freeCell [1, 1, 0, 0, 1, 1, 0, 1, 1] 3 x) ∧
      ([(0, 0), (0, 1), (1, 1), (2, 1), (2, 2)] : List Cell).Chain' adjacent) :=
  ⟨⟨by decide, by decide, by decide, by decide, by decide⟩,
    bfs_path_is_free_walk [1, 1, 0, 0, 1, 1, 0, 1, 1] 3
      [(0, 0), (0, 1), (1, 1), (2, 1), (2, 2)] (by decide) (by decide)
      (by decide) (by decide) (by decide)⟩
